import Mathlib

/-!
Verification of the fantasy-league statistics pipeline (fantasy_dash).

The development shallowly embeds the table-transformation core of
`app/app.py`: the Points Linker (`determine_points_against` and the
surrounding merges), the Weekly Metrics Calculator (the column
assignments for `Won`, `Rank`, `Close Match`, `Close Win`, `Close Loss`,
`Expected Win`), the Season Aggregator (`collect_season_stats`), the
Remaining-Opponent-Strength Estimator (`remaining_opponent_avg_rank`)
and the matchup-item assignment helper (`get_matchup_items`).

Tables are embedded as lists of records, one record per data-frame row,
in row order.  Numeric cells are embedded as rationals.  Pandas
left-merges are embedded per-row: a left merge on a key produces, for
every left row, one output row per matching right row, or a single
output row with a missing (`none`) cell when there is no match; merge
keys that are missing (`NaN` in pandas) match nothing.  Python
exceptions (failed `.iloc[0]` lookups, `ZeroDivisionError`,
out-of-range list indexing) are embedded by `Option`: a computation
that raises is `none`.
-/

/-- Round half to even (banker's rounding, as used by numpy/pandas
rounding and Python's `round`) of a rational to an integer. -/
def rhe (q : ℚ) : ℤ :=
  let f : ℤ := ⌊q⌋
  let r : ℚ := q - f
  if r < 1/2 then f
  else if 1/2 < r then f + 1
  else if f % 2 = 0 then f else f + 1

/-- Round a rational to `d` decimal places, half to even; embeds
`round(x, d)` / `DataFrame.round`. -/
def roundTo (d : Nat) (q : ℚ) : ℚ :=
  (rhe (q * (10 ^ d : ℚ)) : ℚ) / (10 ^ d : ℚ)

/-- Fractional (average-for-ties) ascending rank of value `v` among the
values of `l`; embeds the pandas `Series.rank()` default
(`method="average"`, ascending): the count of strictly smaller values
plus the average of the positions occupied by the tied values. -/
def fracRankAsc (l : List ℚ) (v : ℚ) : ℚ :=
  ((l.countP fun x => decide (x < v) : ℕ) : ℚ) +
    (((l.countP fun x => decide (x = v) : ℕ) : ℚ) + 1) / 2

/-- Fractional (average-for-ties) descending rank of `v` among the
values of `l`; embeds `Series.rank(ascending=False)`. -/
def fracRankDesc (l : List ℚ) (v : ℚ) : ℚ :=
  ((l.countP fun x => decide (v < x) : ℕ) : ℚ) +
    (((l.countP fun x => decide (x = v) : ℕ) : ℚ) + 1) / 2

/-- Insert `x` into `l` before the first element `y` with `le x y`
false-free, i.e. standard ordered insertion with respect to `le`. -/
def insertLe {σ : Type} (le : σ → σ → Bool) (x : σ) : List σ → List σ
  | [] => [x]
  | y :: ys => if le x y then x :: y :: ys else y :: insertLe le x ys

/-- Insertion sort with respect to `le`; embeds the (order of ties
unspecified) sorts performed by pandas `sort_values` and the sorted
group keys of `groupby`. -/
def sortLe {σ : Type} (le : σ → σ → Bool) : List σ → List σ
  | [] => []
  | x :: xs => insertLe le x (sortLe le xs)

/-- Distinct elements of a list (the set of group keys of a pandas
`groupby`; the keys are subsequently sorted, so only the underlying
set matters). -/
def uniqKeys : List String → List String
  | [] => []
  | x :: xs =>
    let r := uniqKeys xs
    if r.contains x then r else x :: r

/-- Median of a list of rationals: sort, take the middle element, or
the mean of the two middle elements for an even count; embeds the
pandas `GroupBy.median` on a nonempty group (`0` on the empty list,
which no group ever is). -/
def medianQ (l : List ℚ) : ℚ :=
  let s := sortLe (fun a b => decide (a ≤ b)) l
  let n := s.length
  if n = 0 then 0
  else if n % 2 = 1 then s.getD (n / 2) 0
  else (s.getD (n / 2 - 1) 0 + s.getD (n / 2) 0) / 2

/-- Concatenation of the images of `f` over a list; the row-wise
expansion performed by a pandas merge (each left row contributes its
list of joined rows). -/
def joinAll {σ τ : Type} (f : σ → List τ) : List σ → List τ
  | [] => []
  | x :: xs => f x ++ joinAll f xs

/-- Effectful map over a list in the `Option` monad, embedding a Python
loop whose body may raise: the first raising element aborts the whole
computation. -/
def traverseOpt {σ τ : Type} (f : σ → Option τ) : List σ → Option (List τ)
  | [] => some []
  | x :: xs =>
    match f x, traverseOpt f xs with
    | some v, some vs => some (v :: vs)
    | _, _ => none

/-- Row of the narrow per-week points table (`points_data` in
`app/app.py`, produced by `pd.melt` of the wide points table). -/
structure PointsRow where
  week : ℕ
  player : String
  points : ℚ
deriving DecidableEq, Repr

/-- Row of the narrow schedule fact table (`schedule` in `app/app.py`,
produced by `pd.melt` of the wide schedule table). -/
structure ScheduleRow where
  week : ℕ
  player : String
  opponent : String
deriving DecidableEq, Repr

/-- Row of the intermediate `against` table inside
`determine_points_against`: the points fact left-merged with the
schedule on (week, player), with the points column dropped.  A `none`
opponent is a pandas `NaN` cell from a failed left merge. -/
structure OppRow where
  week : ℕ
  player : String
  opponent : Option String
deriving DecidableEq, Repr

/-- Row of the output of `determine_points_against`: the `against`
table left-merged with the renamed points copy on (week, opponent),
attaching `Points Against`. -/
structure AgainstRow where
  week : ℕ
  player : String
  opponent : Option String
  points_against : Option ℚ
deriving DecidableEq, Repr

/-- Row of the Matchup Fact table (`points` in `app/app.py`): the
points fact left-merged with the output of `determine_points_against`
on (week, player). -/
structure LinkedRow where
  week : ℕ
  player : String
  points : ℚ
  opponent : Option String
  points_against : Option ℚ
deriving DecidableEq, Repr

/-- Rows contributed by one points row to the first merge inside
`determine_points_against` (`app/app.py` line 59: `pd.merge(points_data,
schedule, on=[id_col, player_col], how="left")`, followed by dropping
the points column, line 60). -/
def joinOppRow (schedule : List ScheduleRow) (r : PointsRow) : List OppRow :=
  let ms := schedule.filter fun s => s.week == r.week && s.player == r.player
  if ms.isEmpty then [⟨r.week, r.player, none⟩]
  else ms.map fun s => ⟨r.week, r.player, some s.opponent⟩

/-- First merge inside `determine_points_against`, over the whole
points fact table. -/
def joinOpp (points_data : List PointsRow) (schedule : List ScheduleRow) :
    List OppRow :=
  joinAll (joinOppRow schedule) points_data

/-- Rows contributed by one `against` row to the second merge inside
`determine_points_against` (`app/app.py` lines 61-70): the left merge
with the points fact renamed to (week, opponent, points against), on
(week, opponent).  A `none` opponent key matches no renamed points
row, exactly as a pandas `NaN` merge key. -/
def dpaRow (points_data : List PointsRow) (a : OppRow) : List AgainstRow :=
  let ms := points_data.filter fun q =>
    q.week == a.week && (some q.player == a.opponent)
  if ms.isEmpty then [⟨a.week, a.player, a.opponent, none⟩]
  else ms.map fun q => ⟨a.week, a.player, a.opponent, some q.points⟩

/-- Embeds `determine_points_against` (`app/app.py` lines 37-72): the
schedule merge of `joinOpp` followed by the self-merge attaching
`Points Against`. -/
def determine_points_against (points_data : List PointsRow)
    (schedule : List ScheduleRow) : List AgainstRow :=
  joinAll (dpaRow points_data) (joinOpp points_data schedule)

/-- Rows contributed by one points row to the final merge of
`app/app.py` line 343: `points = pd.merge(points_data, points_against,
how="left", on=[WEEK_COL, PLAYER_COL])`. -/
def linkRow (points_data : List PointsRow) (schedule : List ScheduleRow)
    (r : PointsRow) : List LinkedRow :=
  let ms := (determine_points_against points_data schedule).filter fun m =>
    m.week == r.week && m.player == r.player
  if ms.isEmpty then [⟨r.week, r.player, r.points, none, none⟩]
  else ms.map fun m => ⟨r.week, r.player, r.points, m.opponent, m.points_against⟩

/-- Embeds the Matchup Fact table (`points` in `app/app.py`): the
points fact left-merged with the output of `determine_points_against`
on (week, player). -/
def linkPoints (points_data : List PointsRow) (schedule : List ScheduleRow) :
    List LinkedRow :=
  joinAll (linkRow points_data schedule) points_data

/-- Close-match threshold constant (`app/app.py` line 22:
`CLOSE_MATCH_DIFF = 10`). -/
def CLOSE_MATCH_DIFF : ℚ := 10

/-- Embeds the `Won` column (`app/app.py` lines 347-349:
`points[POINTS_COL] > points[points against]`); a pandas comparison
against a `NaN` cell is false. -/
def wonOf (r : LinkedRow) : Bool :=
  match r.points_against with
  | some v => decide (v < r.points)
  | none => false

/-- Embeds the `Rank` column (`app/app.py` line 352:
`points.groupby(WEEK_COL)[POINTS_COL].rank()`): the fractional
ascending rank of the row's points among the points of all rows of the
same week. -/
def rankOf (rows : List LinkedRow) (r : LinkedRow) : ℚ :=
  fracRankAsc ((rows.filter fun x => x.week == r.week).map (·.points)) r.points

/-- Embeds the `Close Match` column (`app/app.py` lines 360-365:
`abs(points - points_against) <= CLOSE_MATCH_DIFF`); an arithmetic
comparison involving a `NaN` cell is false. -/
def closeMatchOf (r : LinkedRow) : Bool :=
  match r.points_against with
  | some v => decide (|r.points - v| ≤ CLOSE_MATCH_DIFF)
  | none => false

/-- Embeds the `Close Loss` column (`app/app.py` line 366:
`(~Won) & Close Match`). -/
def closeLossOf (r : LinkedRow) : Bool :=
  !wonOf r && closeMatchOf r

/-- Embeds the `Close Win` column (`app/app.py` line 367:
`Won & Close Match`). -/
def closeWinOf (r : LinkedRow) : Bool :=
  wonOf r && closeMatchOf r

/-- Points of all rows sharing week `w` (the week group a pandas
`groupby(WEEK_COL)` aggregates over). -/
def weekPoints (rows : List LinkedRow) (w : ℕ) : List ℚ :=
  (rows.filter fun x => x.week == w).map (·.points)

/-- Embeds the `Expected Win` column (`app/app.py` lines 370-375: merge
of the per-week `median` then `points > Weekly Median Points`). -/
def expectedWinOf (rows : List LinkedRow) (r : LinkedRow) : Bool :=
  decide (medianQ (weekPoints rows r.week) < r.points)

/-- Embeds the season lookup `season.loc[season[player_col] == opp,
"Rank Points"].iloc[0]` (`app/app.py` lines 138-141): the Rank Points
cell of the first season row whose player is `opp`, `none` when the
lookup raises `IndexError`.  The season table is taken through its two
columns read by the estimator, as (player, rank points) pairs. -/
def lookupRankPoints (season : List (String × ℚ)) (opp : String) : Option ℚ :=
  (season.find? fun s => s.1 == opp).map (·.2)

/-- Per-player body of the loop of `remaining_opponent_avg_rank`
(`app/app.py` lines 131-150), over an already filtered remaining
schedule: when any remaining games exist, collect the player's future
opponents, look up each opponent's Rank Points in the season table,
divide each by the current week and round the average to 2 decimals;
otherwise yield 0.  A failed lookup, a zero current week, or a player
with no future opponents raises (is `none`). -/
def roarOne (season : List (String × ℚ)) (remaining : List ScheduleRow)
    (current_week : ℕ) (p : String) : Option ℚ :=
  if remaining.length > 0 then
    match traverseOpt (lookupRankPoints season)
        ((remaining.filter fun s => s.player == p).map (·.opponent)) with
    | none => none
    | some rank_points =>
      if current_week = 0 then none
      else
        let avg_ranks := rank_points.map fun rp => rp / (current_week : ℚ)
        if avg_ranks.length = 0 then none
        else some (roundTo 2 (avg_ranks.sum / (avg_ranks.length : ℚ)))
  else some 0

/-- Embeds `remaining_opponent_avg_rank` (`app/app.py` lines 104-152):
filter the schedule to weeks after `current_week` and run the
per-player loop over the season table's players in order. -/
def remaining_opponent_avg_rank (season : List (String × ℚ))
    (schedule : List ScheduleRow) (current_week : ℕ) : Option (List ℚ) :=
  traverseOpt
    (roarOne season (schedule.filter fun s => current_week < s.week) current_week)
    (season.map (·.1))

/-- Row of the Metric-Enriched Matchup Fact table as consumed by
`collect_season_stats` (the columns aggregated at `app/app.py` lines
181-189); the rank points cell is the row's `Rank Points` column. -/
structure EnrichedRow where
  week : ℕ
  player : String
  points : ℚ
  points_against : ℚ
  won : Bool
  rank_points : ℚ
  expected_win : Bool
  close_win : Bool
  close_loss : Bool
deriving DecidableEq, Repr

/-- Row of the Season Standing table produced by
`collect_season_stats`. -/
structure SeasonRow where
  place : ℚ
  player : String
  points : ℚ
  points_against : ℚ
  wins : ℕ
  rank_points : ℚ
  total_points : ℚ
  expected_wins : ℕ
  close_wins : ℕ
  close_losses : ℕ
  remain_opp_avg_rank : ℚ
deriving DecidableEq, Repr

/-- Per-player aggregation of `collect_season_stats` (`app/app.py`
lines 181-205): sum points, points against, wins, rank points,
expected wins, close wins and close losses over the player's rows;
round points and points against to 2 decimals and the rank points sum
to 1 decimal (pandas sums booleans as integers); `Total Points` is
wins plus the rounded rank points sum.  `place` and the remaining
opponent average are filled in later. -/
def aggPlayer (rows : List EnrichedRow) (p : String) : SeasonRow :=
  let g := rows.filter fun r => r.player == p
  let wins := g.countP (·.won)
  let rank_points := roundTo 1 ((g.map (·.rank_points)).sum)
  { place := 0
    player := p
    points := roundTo 2 ((g.map (·.points)).sum)
    points_against := roundTo 2 ((g.map (·.points_against)).sum)
    wins := wins
    rank_points := rank_points
    total_points := (wins : ℚ) + rank_points
    expected_wins := g.countP (·.expected_win)
    close_wins := g.countP (·.close_win)
    close_losses := g.countP (·.close_loss)
    remain_opp_avg_rank := 0 }

/-- Embeds `collect_season_stats` (`app/app.py` lines 157-235): group
the enriched matchup facts by player (pandas group keys are the sorted
distinct players), aggregate per player, rank `Total Points`
descending into `Place` (average rank for ties), sort ascending by
`Place`, then append the remaining-opponent average computed at the
maximum week present in the input.  The whole computation raises
(is `none`) exactly when the estimator raises. -/
def collect_season_stats (rows : List EnrichedRow)
    (schedule : List ScheduleRow) : Option (List SeasonRow) :=
  let players := sortLe (fun a b => decide (a ≤ b)) (uniqKeys (rows.map (·.player)))
  let base := players.map (aggPlayer rows)
  let totals := base.map (·.total_points)
  let placed := base.map fun s => { s with place := fracRankDesc totals s.total_points }
  let sorted := sortLe (fun a b => decide (a.place ≤ b.place)) placed
  let current_week := (rows.map (·.week)).foldr max 0
  match remaining_opponent_avg_rank (sorted.map fun s => (s.player, s.rank_points))
      schedule current_week with
  | none => none
  | some rs => some (List.zipWith (fun s r => { s with remain_opp_avg_rank := r }) sorted rs)

/-- Opponent of `p` according to the first schedule row whose player is
`p` (the lookup `schedule.loc[schedule[player_col] == player,
against_col].iloc[0]` at `app/app.py` line 261), `none` when the
lookup raises `IndexError`. -/
def oppOf (schedule : List ScheduleRow) (p : String) : Option String :=
  (schedule.find? fun s => s.player == p).map (·.opponent)

/-- Loop of `get_matchup_items` (`app/app.py` lines 258-265) building
the player-to-item map: for each player, first look up the opponent
(raising when the player has no schedule row, even when the player is
already mapped), then, when the player is unmapped, assign the next
item to both the player and the opponent.  The map is an association
list whose most recent binding wins, embedding the Python dict. -/
def getMatchupMap {α : Type} (schedule : List ScheduleRow) (items : List α) :
    List String → List (String × α) → ℕ → Option (List (String × α))
  | [], m, _ => some m
  | p :: ps, m, i =>
    match oppOf schedule p with
    | none => none
    | some against =>
      if (List.lookup p m).isSome then getMatchupMap schedule items ps m i
      else
        match items[i]? with
        | none => none
        | some item =>
          getMatchupMap schedule items ps ((against, item) :: (p, item) :: m) (i + 1)

/-- Embeds `get_matchup_items` (`app/app.py` lines 238-268): build the
player-to-item map over the given players, then read the map back in
player order. -/
def get_matchup_items {α : Type} (players : List String)
    (schedule : List ScheduleRow) (items : List α) : Option (List α) :=
  match getMatchupMap schedule items players [] 0 with
  | none => none
  | some m => traverseOpt (fun p => List.lookup p m) players

/-! Generic list lemmas used to reason about the embedded merges and
loops. -/

theorem joinAll_eq_nil_filter {σ τ : Type} (p : τ → Bool) (f : σ → List τ)
    (l : List σ) (h : ∀ x ∈ l, (f x).filter p = []) :
    (joinAll f l).filter p = [] := by
  induction l with
  | nil => rfl
  | cons x xs ih =>
    simp only [joinAll, List.filter_append]
    rw [h x (by simp), ih fun y hy => h y (by simp [hy])]
    rfl

theorem filter_joinAll_single {σ τ : Type} [DecidableEq σ] (p : τ → Bool)
    (f : σ → List τ) (l : List σ) (a : σ) (hcount : l.count a = 1)
    (hfa : (f a).filter p = f a)
    (hother : ∀ x ∈ l, x ≠ a → (f x).filter p = []) :
    (joinAll f l).filter p = f a := by
  induction l with
  | nil => simp at hcount
  | cons x xs ih =>
    by_cases hxa : x = a
    · subst hxa
      rw [List.count_cons_self] at hcount
      have hnot : x ∉ xs := by
        rw [← List.count_eq_zero]
        omega
      simp only [joinAll, List.filter_append, hfa]
      rw [joinAll_eq_nil_filter p f xs fun y hy =>
        hother y (by simp [hy]) (fun heq => hnot (heq ▸ hy))]
      simp
    · have hcount2 : xs.count a = 1 := by
        rwa [List.count_cons_of_ne (fun h => hxa h.symm)] at hcount
      simp only [joinAll, List.filter_append]
      rw [hother x (by simp) hxa,
        ih hcount2 fun y hy hne => hother y (by simp [hy]) hne]
      simp

theorem filter_singleton_of_key {σ κ : Type} (key : σ → κ) (p : σ → Bool)
    (l : List σ) (hpw : l.Pairwise fun x y => key x ≠ key y) (a : σ)
    (ha : a ∈ l) (hpa : p a = true) (hkey : ∀ x, p x = true → key x = key a) :
    l.filter p = [a] := by
  induction l with
  | nil => simp at ha
  | cons x xs ih =>
    rw [List.pairwise_cons] at hpw
    by_cases hpx : p x = true
    · have hxa : x = a := by
        rcases List.mem_cons.mp ha with h | h
        · exact h.symm
        · exact absurd (hkey x hpx) (hpw.1 a h)
      subst hxa
      have : xs.filter p = [] := by
        rw [List.filter_eq_nil_iff]
        intro y hy hpy
        exact hpw.1 y hy (hkey y hpy).symm
      simp [List.filter_cons, hpx, this]
    · have hxa : a ∈ xs := by
        rcases List.mem_cons.mp ha with h | h
        · exact absurd (h ▸ hpa) hpx
        · exact h
      rw [List.filter_cons_of_neg (by simp [hpx]), ih hpw.2 hxa]

theorem count_eq_one_of_key_pairwise {σ κ : Type} [DecidableEq σ]
    (key : σ → κ) (l : List σ) (hpw : l.Pairwise fun x y => key x ≠ key y)
    (a : σ) (ha : a ∈ l) : l.count a = 1 :=
  List.count_eq_one_of_mem
    (List.Pairwise.imp (fun hne heq => hne (congrArg key heq)) hpw) ha

theorem traverseOpt_eq_map {σ τ : Type} (f : σ → Option τ) (g : σ → τ)
    (l : List σ) (h : ∀ x ∈ l, f x = some (g x)) :
    traverseOpt f l = some (l.map g) := by
  induction l with
  | nil => rfl
  | cons x xs ih =>
    simp only [traverseOpt, h x (by simp),
      ih fun y hy => h y (by simp [hy]), List.map_cons]

theorem traverseOpt_eq_none {σ τ : Type} (f : σ → Option τ) (l : List σ)
    (a : σ) (ha : a ∈ l) (hf : f a = none) : traverseOpt f l = none := by
  induction l with
  | nil => simp at ha
  | cons x xs ih =>
    rcases List.mem_cons.mp ha with h | h
    · subst h
      simp [traverseOpt, hf]
    · cases hfx : f x <;> simp [traverseOpt, hfx, ih h]

theorem traverseOpt_length {σ τ : Type} (f : σ → Option τ) (l : List σ)
    (res : List τ) (h : traverseOpt f l = some res) :
    res.length = l.length := by
  induction l generalizing res with
  | nil => simp [traverseOpt] at h; simp [← h]
  | cons x xs ih =>
    simp only [traverseOpt] at h
    cases hfx : f x with
    | none => rw [hfx] at h; exact absurd h (by simp)
    | some v =>
      rw [hfx] at h
      cases hrest : traverseOpt f xs with
      | none => rw [hrest] at h; exact absurd h (by simp)
      | some vs =>
        rw [hrest] at h
        cases h
        simp [ih vs hrest]

theorem traverseOpt_getElem {σ τ : Type} (f : σ → Option τ) (l : List σ)
    (res : List τ) (h : traverseOpt f l = some res) (i : ℕ) (x : σ)
    (hx : l[i]? = some x) : res[i]? = f x := by
  induction l generalizing res i with
  | nil => simp at hx
  | cons y ys ih =>
    simp only [traverseOpt] at h
    cases hfy : f y with
    | none => rw [hfy] at h; exact absurd h (by simp)
    | some v =>
      rw [hfy] at h
      cases hrest : traverseOpt f ys with
      | none => rw [hrest] at h; exact absurd h (by simp)
      | some vs =>
        rw [hrest] at h
        cases h
        cases i with
        | zero => simp_all
        | succ j =>
          simp only [List.getElem?_cons_succ] at hx ⊢
          exact ih vs hrest j hx

/-! Points Linker: key-uniqueness lemmas leading to claim C1. -/

theorem joinOppRow_key (schedule : List ScheduleRow) (x : PointsRow) :
    ∀ b ∈ joinOppRow schedule x, b.week = x.week ∧ b.player = x.player := by
  intro b hb
  unfold joinOppRow at hb
  by_cases hms : (schedule.filter fun s =>
      s.week == x.week && s.player == x.player).isEmpty
  · simp only [hms, if_pos] at hb
    simp only [List.mem_singleton] at hb
    subst hb
    exact ⟨rfl, rfl⟩
  · simp only [hms, if_neg, Bool.false_eq_true, not_false_iff] at hb
    obtain ⟨s, _, rfl⟩ := List.mem_map.mp hb
    exact ⟨rfl, rfl⟩

theorem dpaRow_key (points_data : List PointsRow) (a : OppRow) :
    ∀ b ∈ dpaRow points_data a, b.week = a.week ∧ b.player = a.player := by
  intro b hb
  unfold dpaRow at hb
  by_cases hms : (points_data.filter fun q =>
      q.week == a.week && (some q.player == a.opponent)).isEmpty
  · simp only [hms, if_pos] at hb
    simp only [List.mem_singleton] at hb
    subst hb
    exact ⟨rfl, rfl⟩
  · simp only [hms, if_neg, Bool.false_eq_true, not_false_iff] at hb
    obtain ⟨s, _, rfl⟩ := List.mem_map.mp hb
    exact ⟨rfl, rfl⟩

theorem linkRow_key (points_data : List PointsRow) (schedule : List ScheduleRow)
    (x : PointsRow) :
    ∀ b ∈ linkRow points_data schedule x,
      b.week = x.week ∧ b.player = x.player := by
  intro b hb
  unfold linkRow at hb
  by_cases hms : ((determine_points_against points_data schedule).filter fun m =>
      m.week == x.week && m.player == x.player).isEmpty
  · simp only [hms, if_pos] at hb
    simp only [List.mem_singleton] at hb
    subst hb
    exact ⟨rfl, rfl⟩
  · simp only [hms, if_neg, Bool.false_eq_true, not_false_iff] at hb
    obtain ⟨s, _, rfl⟩ := List.mem_map.mp hb
    exact ⟨rfl, rfl⟩

theorem keyNe_symm {σ κ : Type} (key : σ → κ) :
    Symmetric fun a b => key a ≠ key b :=
  fun _ _ h heq => h heq.symm

theorem joinOpp_filter_eq (points_data : List PointsRow)
    (schedule : List ScheduleRow)
    (hpd : points_data.Pairwise fun a b => (a.week, a.player) ≠ (b.week, b.player))
    (hsch : schedule.Pairwise fun a b => (a.week, a.player) ≠ (b.week, b.player))
    (r : PointsRow) (hr : r ∈ points_data) (s0 : ScheduleRow) (hs0 : s0 ∈ schedule)
    (hs0w : s0.week = r.week) (hs0p : s0.player = r.player) :
    (joinOpp points_data schedule).filter
        (fun b => b.week == r.week && b.player == r.player) =
      [⟨r.week, r.player, some s0.opponent⟩] := by
  have hms : schedule.filter (fun s => s.week == r.week && s.player == r.player)
      = [s0] := by
    refine filter_singleton_of_key (fun s => (s.week, s.player)) _ _ hsch s0 hs0
      (by simp [hs0w, hs0p]) ?_
    intro x hx
    simp only [Bool.and_eq_true, beq_iff_eq] at hx
    simp [hx.1, hx.2, hs0w, hs0p]
  have hfr : joinOppRow schedule r = [⟨r.week, r.player, some s0.opponent⟩] := by
    unfold joinOppRow
    rw [hms]
    simp
  rw [joinOpp, ← hfr]
  refine filter_joinAll_single _ _ _ r
    (count_eq_one_of_key_pairwise (fun x => (x.week, x.player)) _ hpd r hr) ?_ ?_
  · rw [hfr]
    simp
  · intro x hx hne
    have hkeyne : (x.week, x.player) ≠ (r.week, r.player) :=
      List.Pairwise.forall (keyNe_symm fun z : PointsRow => (z.week, z.player))
        hpd hx hr hne
    rw [List.filter_eq_nil_iff]
    intro b hb hp
    obtain ⟨hbw, hbp⟩ := joinOppRow_key schedule x b hb
    simp only [Bool.and_eq_true, beq_iff_eq] at hp
    apply hkeyne
    rw [← hbw, ← hbp]
    simp [hp.1, hp.2]

theorem dpa_filter_eq (points_data : List PointsRow)
    (schedule : List ScheduleRow)
    (hpd : points_data.Pairwise fun a b => (a.week, a.player) ≠ (b.week, b.player))
    (hsch : schedule.Pairwise fun a b => (a.week, a.player) ≠ (b.week, b.player))
    (r : PointsRow) (hr : r ∈ points_data) (s0 : ScheduleRow) (hs0 : s0 ∈ schedule)
    (hs0w : s0.week = r.week) (hs0p : s0.player = r.player)
    (q : PointsRow) (hq : q ∈ points_data) (hqw : q.week = r.week)
    (hqp : q.player = s0.opponent) :
    (determine_points_against points_data schedule).filter
        (fun b => b.week == r.week && b.player == r.player) =
      [⟨r.week, r.player, some s0.opponent, some q.points⟩] := by
  have hjo := joinOpp_filter_eq points_data schedule hpd hsch r hr s0 hs0 hs0w hs0p
  set a0 : OppRow := ⟨r.week, r.player, some s0.opponent⟩ with ha0
  have ha0mem : a0 ∈ joinOpp points_data schedule := by
    have : a0 ∈ (joinOpp points_data schedule).filter
        (fun b => b.week == r.week && b.player == r.player) := by
      rw [hjo]; simp
    exact (List.mem_filter.mp this).1
  have hcount : (joinOpp points_data schedule).count a0 = 1 := by
    have h1 : ((joinOpp points_data schedule).filter
        (fun b => b.week == r.week && b.player == r.player)).count a0 =
        (joinOpp points_data schedule).count a0 :=
      List.count_filter (by simp [ha0])
    rw [hjo] at h1
    simpa using h1.symm
  have hga0 : dpaRow points_data a0 =
      [⟨r.week, r.player, some s0.opponent, some q.points⟩] := by
    have hms : points_data.filter (fun z =>
        z.week == a0.week && (some z.player == a0.opponent)) = [q] := by
      refine filter_singleton_of_key (fun z => (z.week, z.player)) _ _ hpd q hq
        ?_ ?_
      · simp [ha0, hqw, hqp]
      · intro x hx
        simp only [ha0, Option.some.injEq, Bool.and_eq_true, beq_iff_eq] at hx
        simp [hx.1, hx.2, hqw, hqp]
    unfold dpaRow
    rw [hms]
    simp [ha0]
  rw [determine_points_against, ← hga0]
  refine filter_joinAll_single _ _ _ a0 hcount ?_ ?_
  · rw [hga0]
    simp [ha0]
  · intro b hb hne
    rw [List.filter_eq_nil_iff]
    intro c hc hp
    obtain ⟨hcw, hcp⟩ := dpaRow_key points_data b c hc
    simp only [Bool.and_eq_true, beq_iff_eq] at hp
    have hbkey : b.week = r.week ∧ b.player = r.player :=
      ⟨hcw ▸ hp.1, hcp ▸ hp.2⟩
    have : b ∈ (joinOpp points_data schedule).filter
        (fun x => x.week == r.week && x.player == r.player) :=
      List.mem_filter.mpr ⟨hb, by simp [hbkey.1, hbkey.2]⟩
    rw [hjo] at this
    simp only [List.mem_singleton] at this
    exact hne (this.trans ha0.symm ▸ this)

/-- Claim C1: over points and schedule fact tables with unique
(week, player) keys, for every points row `r` whose player has the
schedule row `s0` that week and whose opponent `s0.opponent` has the
points row `q` that week, the Matchup Fact table contains exactly one
row keyed (r.week, r.player), and its `Points Against` cell is exactly
`q.points`, the points of the opponent's row of the same week. -/
theorem c1_matchup_fact_unique_row_and_points_against
    (points_data : List PointsRow) (schedule : List ScheduleRow)
    (hpd : points_data.Pairwise fun a b => (a.week, a.player) ≠ (b.week, b.player))
    (hsch : schedule.Pairwise fun a b => (a.week, a.player) ≠ (b.week, b.player))
    (r : PointsRow) (hr : r ∈ points_data) (s0 : ScheduleRow) (hs0 : s0 ∈ schedule)
    (hs0w : s0.week = r.week) (hs0p : s0.player = r.player)
    (q : PointsRow) (hq : q ∈ points_data) (hqw : q.week = r.week)
    (hqp : q.player = s0.opponent) :
    (linkPoints points_data schedule).filter
        (fun m => m.week == r.week && m.player == r.player) =
      [⟨r.week, r.player, r.points, some s0.opponent, some q.points⟩] := by
  have hdpa := dpa_filter_eq points_data schedule hpd hsch r hr s0 hs0 hs0w hs0p
    q hq hqw hqp
  have hfr : linkRow points_data schedule r =
      [⟨r.week, r.player, r.points, some s0.opponent, some q.points⟩] := by
    unfold linkRow
    rw [hdpa]
    simp
  rw [linkPoints, ← hfr]
  refine filter_joinAll_single _ _ _ r
    (count_eq_one_of_key_pairwise (fun x => (x.week, x.player)) _ hpd r hr) ?_ ?_
  · rw [hfr]
    simp
  · intro x hx hne
    have hkeyne : (x.week, x.player) ≠ (r.week, r.player) :=
      List.Pairwise.forall (keyNe_symm fun z : PointsRow => (z.week, z.player))
        hpd hx hr hne
    rw [List.filter_eq_nil_iff]
    intro b hb hp
    obtain ⟨hbw, hbp⟩ := linkRow_key points_data schedule x b hb
    simp only [Bool.and_eq_true, beq_iff_eq] at hp
    apply hkeyne
    rw [← hbw, ← hbp]
    simp [hp.1, hp.2]

/-! Fractional-ranking identity: the sum of average-for-ties ranks over
a group of n values is n(n+1)/2. -/

theorem sum_map_indicator (p : ℚ → Bool) (t : List ℚ) :
    (t.map fun v => if p v then (1 : ℕ) else 0).sum = t.countP p := by
  induction t with
  | nil => rfl
  | cons a t ih =>
    cases hp : p a <;> simp [List.countP_cons, hp, ih] <;> omega

theorem countP_cons_expand (p : ℚ → ℚ → Bool) (a : ℚ) (t : List ℚ) :
    (t.map fun v => List.countP (p v) (a :: t)).sum =
      (t.map fun v => t.countP (p v)).sum + t.countP fun v => p v a := by
  have h1 : (t.map fun v => List.countP (p v) (a :: t)) =
      t.map fun v => t.countP (p v) + if p v a then 1 else 0 := by
    refine List.map_congr_left fun v _ => ?_
    rw [List.countP_cons]
  rw [h1, List.sum_map_add, sum_map_indicator (fun v => p v a) t]

theorem sum_lt_eq_sum_gt (l : List ℚ) :
    (l.map fun v => l.countP fun x => decide (x < v)).sum =
      (l.map fun v => l.countP fun x => decide (v < x)).sum := by
  induction l with
  | nil => rfl
  | cons a t ih =>
    simp only [List.map_cons, List.sum_cons]
    rw [countP_cons_expand (fun v x => decide (x < v)) a t,
      countP_cons_expand (fun v x => decide (v < x)) a t]
    rw [List.countP_cons, List.countP_cons]
    simp only [lt_self_iff_false]
    simp only [ih]
    omega

theorem countP_tricho (t : List ℚ) (a : ℚ) :
    (t.countP fun x => decide (x < a)) + (t.countP fun x => decide (a < x)) +
      (t.countP fun x => decide (x = a)) = t.length := by
  induction t with
  | nil => rfl
  | cons y s ih =>
    rw [List.countP_cons, List.countP_cons, List.countP_cons, List.length_cons]
    rcases lt_trichotomy y a with h | h | h
    · rw [if_pos (by simpa using h), if_neg (by simp [not_lt_of_lt h]),
        if_neg (by simp [ne_of_lt h])]
      omega
    · rw [if_neg (by simp [h]), if_neg (by simp [h]), if_pos (by simp [h])]
      omega
    · rw [if_neg (by simp [not_lt_of_lt h]), if_pos (by simpa using h),
        if_neg (by simp [(ne_of_lt h).symm])]
      omega

theorem sum_tricho (l : List ℚ) :
    (l.map fun v => l.countP fun x => decide (x < v)).sum +
      (l.map fun v => l.countP fun x => decide (v < x)).sum +
      (l.map fun v => l.countP fun x => decide (x = v)).sum =
      l.length * l.length := by
  induction l with
  | nil => rfl
  | cons a t ih =>
    simp only [List.map_cons, List.sum_cons]
    rw [countP_cons_expand (fun v x => decide (x < v)) a t,
      countP_cons_expand (fun v x => decide (v < x)) a t,
      countP_cons_expand (fun v x => decide (x = v)) a t]
    rw [List.countP_cons, List.countP_cons, List.countP_cons]
    have hlt : ¬ ((decide (a < a)) = true) := by simp
    have heq : (decide (a = a)) = true := by simp
    rw [if_neg hlt, if_pos heq]
    have hsymm : (t.countP fun v => decide (a = v)) =
        t.countP fun v => decide (v = a) :=
      List.countP_congr fun x _ => by simp [eq_comm]
    have htr := countP_tricho t a
    have hsq : (t.length + 1) * (t.length + 1) =
        t.length * t.length + 2 * t.length + 1 := by ring
    simp only [List.length_cons]
    omega

theorem sum_fracRankAsc (l : List ℚ) :
    (l.map (fracRankAsc l)).sum =
      (l.length : ℚ) * ((l.length : ℚ) + 1) / 2 := by
  have hAB := sum_lt_eq_sum_gt l
  have hT := sum_tricho l
  have hcast : ∀ f : ℚ → ℕ,
      (((l.map f).sum : ℕ) : ℚ) = (l.map fun v => ((f v : ℕ) : ℚ)).sum := by
    intro f
    rw [Nat.cast_list_sum, List.map_map]
    rfl
  have h1 : (l.map (fracRankAsc l)).sum =
      (l.map fun v => ((l.countP fun x => decide (x < v) : ℕ) : ℚ)).sum +
        ((l.map fun v => ((l.countP fun x => decide (x = v) : ℕ) : ℚ)).sum * (1/2)
          + (l.length : ℚ) * (1/2)) := by
    unfold fracRankAsc
    rw [List.sum_map_add]
    congr 1
    have h2 : (l.map fun v =>
        (((l.countP fun x => decide (x = v) : ℕ) : ℚ) + 1) / 2) =
        l.map fun v =>
          ((l.countP fun x => decide (x = v) : ℕ) : ℚ) * (1/2) + (1/2 : ℚ) := by
      refine List.map_congr_left fun v _ => ?_
      ring
    rw [h2, List.sum_map_add, List.sum_map_mul_right]
    congr 1
    have h3 : (l.map fun _ : ℚ => (1/2 : ℚ)) = List.replicate l.length (1/2 : ℚ) :=
      List.map_const' l (1/2 : ℚ)
    rw [h3, List.sum_replicate, nsmul_eq_mul]
  rw [h1, ← hcast, ← hcast]
  have h2AE : ((l.map fun v => l.countP fun x => decide (x < v)).sum : ℚ) * 2 +
      ((l.map fun v => l.countP fun x => decide (x = v)).sum : ℚ) =
      (l.length : ℚ) * (l.length : ℚ) := by
    have : (l.map fun v => l.countP fun x => decide (x < v)).sum +
        (l.map fun v => l.countP fun x => decide (x < v)).sum +
        (l.map fun v => l.countP fun x => decide (x = v)).sum =
        l.length * l.length := by
      rw [hAB] at hT ⊢
      rw [← hAB] at hT
      omega
    calc ((l.map fun v => l.countP fun x => decide (x < v)).sum : ℚ) * 2 +
        ((l.map fun v => l.countP fun x => decide (x = v)).sum : ℚ)
        = (((l.map fun v => l.countP fun x => decide (x < v)).sum +
            (l.map fun v => l.countP fun x => decide (x < v)).sum +
            (l.map fun v => l.countP fun x => decide (x = v)).sum : ℕ) : ℚ) := by
          push_cast
          ring
      _ = (((l.length * l.length : ℕ)) : ℚ) := by rw [this]
      _ = (l.length : ℚ) * (l.length : ℚ) := by push_cast; ring
  have hexp : (l.length : ℚ) * ((l.length : ℚ) + 1) / 2 =
      ((l.length : ℚ) * (l.length : ℚ) + (l.length : ℚ)) / 2 := by ring
  rw [hexp]
  linarith [h2AE]

/-- Rows of the Matchup Fact table belonging to week `w` (a week group
of `points.groupby(WEEK_COL)`). -/
def weekRows (rows : List LinkedRow) (w : ℕ) : List LinkedRow :=
  rows.filter fun r => r.week == w

/-- Claim C5: within every week the `Rank` column is the fractional
(average-for-ties) rank of `Points`, and the ranks of a week whose
group has `N` rows sum to `N(N+1)/2`, ties included; with the league's
fixed player count as the per-week row count (one row per player per
week), this is the claimed identity. -/
theorem c5_weekly_rank_sum (rows : List LinkedRow) (w N : ℕ)
    (hN : (weekRows rows w).length = N) :
    ((weekRows rows w).map (rankOf rows)).sum = (N : ℚ) * ((N : ℚ) + 1) / 2 := by
  have hmem : ∀ r ∈ weekRows rows w, r.week = w := by
    intro r hr
    have := (List.mem_filter.mp hr).2
    simpa using this
  have hwp : weekPoints rows w = (weekRows rows w).map (·.points) := rfl
  have hcong : (weekRows rows w).map (rankOf rows) =
      (weekRows rows w).map fun r => fracRankAsc (weekPoints rows w) r.points := by
    refine List.map_congr_left fun r hr => ?_
    unfold rankOf weekPoints
    rw [hmem r hr]
  rw [hcong]
  have hcomp : ((weekRows rows w).map fun r =>
      fracRankAsc (weekPoints rows w) r.points) =
      (weekPoints rows w).map (fracRankAsc (weekPoints rows w)) := by
    rw [hwp, List.map_map]
    rfl
  rw [hcomp, sum_fracRankAsc]
  have hlen : (weekPoints rows w).length = N := by
    rw [hwp, List.length_map, hN]
  rw [hlen]

/-- Witness for C5 on the spec's scenario week {100, 80, 90, 90} with
a tie: the four weekly ranks sum to 4·5/2 = 10. -/
theorem c5_weekly_rank_sum_witness :
    ((weekRows
        [⟨1, "A", 100, some "B", some 80⟩, ⟨1, "B", 80, some "A", some 100⟩,
          ⟨1, "C", 90, some "D", some 90⟩, ⟨1, "D", 90, some "C", some 90⟩] 1).map
      (rankOf
        [⟨1, "A", 100, some "B", some 80⟩, ⟨1, "B", 80, some "A", some 100⟩,
          ⟨1, "C", 90, some "D", some 90⟩, ⟨1, "D", 90, some "C", some 90⟩])).sum =
      (4 : ℚ) * ((4 : ℚ) + 1) / 2 :=
  c5_weekly_rank_sum _ 1 4 (by decide)

/-- Witness for C1: in a two-player, one-week league the Matchup Fact
table has exactly one row for (week 1, player A), carrying opponent B
and B's points as `Points Against`. -/
theorem c1_matchup_fact_witness :
    (linkPoints [⟨1, "A", 100⟩, ⟨1, "B", 80⟩]
        [⟨1, "A", "B"⟩, ⟨1, "B", "A"⟩]).filter
        (fun m => m.week == 1 && m.player == "A") =
      [⟨1, "A", 100, some "B", some 80⟩] :=
  c1_matchup_fact_unique_row_and_points_against
    [⟨1, "A", 100⟩, ⟨1, "B", 80⟩] [⟨1, "A", "B"⟩, ⟨1, "B", "A"⟩]
    (by decide) (by decide)
    ⟨1, "A", 100⟩ (by decide) ⟨1, "A", "B"⟩ (by decide) rfl rfl
    ⟨1, "B", 80⟩ (by decide) rfl rfl

/-- Claim C6: for a mutual-opponent pair of matchup rows (same week,
each listing the other's player as opponent and the other's points as
points against), `Won` — computed as a strict comparison of points and
points against — never holds for both rows, and holds for neither when
their points are equal. -/
theorem c6_mutual_pair_not_both_won (m1 m2 : LinkedRow)
    (hweek : m1.week = m2.week)
    (hopp1 : m1.opponent = some m2.player)
    (hopp2 : m2.opponent = some m1.player)
    (hpa1 : m1.points_against = some m2.points)
    (hpa2 : m2.points_against = some m1.points) :
    ¬(wonOf m1 = true ∧ wonOf m2 = true) ∧
      (m1.points = m2.points → wonOf m1 = false ∧ wonOf m2 = false) := by
  have h1 : wonOf m1 = decide (m2.points < m1.points) := by
    unfold wonOf
    rw [hpa1]
  have h2 : wonOf m2 = decide (m1.points < m2.points) := by
    unfold wonOf
    rw [hpa2]
  rw [h1, h2]
  constructor
  · rintro ⟨ha, hb⟩
    simp only [decide_eq_true_eq] at ha hb
    exact absurd hb (lt_asymm ha)
  · intro heq
    rw [heq]
    simp

/-- Witness for C6 on a concrete mutual pair with equal scores. -/
theorem c6_mutual_pair_witness :
    ¬(wonOf ⟨1, "C", 90, some "D", some 90⟩ = true ∧
        wonOf ⟨1, "D", 90, some "C", some 90⟩ = true) ∧
      ((90 : ℚ) = (90 : ℚ) →
        wonOf ⟨1, "C", 90, some "D", some 90⟩ = false ∧
          wonOf ⟨1, "D", 90, some "C", some 90⟩ = false) :=
  c6_mutual_pair_not_both_won
    ⟨1, "C", 90, some "D", some 90⟩ ⟨1, "D", 90, some "C", some 90⟩
    rfl rfl rfl rfl rfl

/-- Claim C7: on a matchup row whose points against is present,
`Close Match` holds exactly when the absolute points difference is at
most `CLOSE_MATCH_DIFF` = 10, `Close Win` exactly when the row both
won and is a close match, and `Close Loss` exactly when the row is a
close match and did not win. -/
theorem c7_close_match_columns (r : LinkedRow) (v : ℚ)
    (h : r.points_against = some v) :
    (closeMatchOf r = true ↔ |r.points - v| ≤ CLOSE_MATCH_DIFF) ∧
      (closeWinOf r = true ↔ (wonOf r = true ∧ closeMatchOf r = true)) ∧
      (closeLossOf r = true ↔ (closeMatchOf r = true ∧ wonOf r = false)) := by
  have hcm : closeMatchOf r = decide (|r.points - v| ≤ CLOSE_MATCH_DIFF) := by
    unfold closeMatchOf
    rw [h]
  refine ⟨?_, ?_, ?_⟩
  · rw [hcm]
    simp
  · unfold closeWinOf
    cases wonOf r <;> cases closeMatchOf r <;> simp
  · unfold closeLossOf
    cases wonOf r <;> cases closeMatchOf r <;> simp

/-- Witness for C7 on the spec's 55-vs-50 close match. -/
theorem c7_close_match_witness :
    (closeMatchOf ⟨1, "A", 55, some "B", some 50⟩ = true ↔
        |(55 : ℚ) - 50| ≤ CLOSE_MATCH_DIFF) ∧
      (closeWinOf ⟨1, "A", 55, some "B", some 50⟩ = true ↔
        (wonOf ⟨1, "A", 55, some "B", some 50⟩ = true ∧
          closeMatchOf ⟨1, "A", 55, some "B", some 50⟩ = true)) ∧
      (closeLossOf ⟨1, "A", 55, some "B", some 50⟩ = true ↔
        (closeMatchOf ⟨1, "A", 55, some "B", some 50⟩ = true ∧
          wonOf ⟨1, "A", 55, some "B", some 50⟩ = false)) :=
  c7_close_match_columns ⟨1, "A", 55, some "B", some 50⟩ 50 rfl

/-- Claim C8: `Expected Win` holds on a matchup row exactly when the
row's points strictly exceed the median of its week's points; a row
whose points equal the weekly median is not an expected win. -/
theorem c8_expected_win_strict_median (rows : List LinkedRow) (r : LinkedRow)
    (hr : r ∈ rows) :
    (expectedWinOf rows r = true ↔ medianQ (weekPoints rows r.week) < r.points) ∧
      (r.points = medianQ (weekPoints rows r.week) →
        expectedWinOf rows r = false) := by
  constructor
  · unfold expectedWinOf
    simp
  · intro heq
    unfold expectedWinOf
    have hnot : ¬ (medianQ (weekPoints rows r.week) < r.points) := by
      rw [heq]
      exact lt_irrefl _
    simp [hnot]

/-- Future opponents of player `p`: opponents listed by the schedule
rows of `p` with week strictly beyond the cutoff. -/
def futureOpps (schedule : List ScheduleRow) (cw : ℕ) (p : String) :
    List String :=
  ((schedule.filter fun s => cw < s.week).filter fun s => s.player == p).map
    (·.opponent)

/-- Claim C3: when no schedule row lies beyond the cutoff week, the
estimator returns 0 for every player of the season table, as a defined
result. -/
theorem c3_estimator_zero_when_season_complete (season : List (String × ℚ))
    (schedule : List ScheduleRow) (cw : ℕ)
    (h : ∀ s ∈ schedule, s.week ≤ cw) :
    remaining_opponent_avg_rank season schedule cw =
      some (season.map fun _ => 0) := by
  unfold remaining_opponent_avg_rank
  have hnil : (schedule.filter fun s => decide (cw < s.week)) = [] := by
    rw [List.filter_eq_nil_iff]
    intro s hs
    simpa using not_lt.mpr (h s hs)
  rw [hnil]
  have hall : ∀ p ∈ season.map (·.1), roarOne season [] cw p = some 0 := by
    intro p _
    unfold roarOne
    simp
  rw [traverseOpt_eq_map _ (fun _ => (0 : ℚ)) _ hall, List.map_map]
  rfl

/-- Witness for C3: a completed two-player season. -/
theorem c3_estimator_zero_witness :
    remaining_opponent_avg_rank [("A", 5), ("B", 3)] [⟨1, "A", "B"⟩, ⟨1, "B", "A"⟩] 1 =
      some [0, 0] :=
  c3_estimator_zero_when_season_complete [("A", 5), ("B", 3)]
    [⟨1, "A", "B"⟩, ⟨1, "B", "A"⟩] 1 (by decide)

/-- Claim C10: the emptiness guard of the estimator tests the whole
remaining schedule, not the individual player: whenever some schedule
row lies beyond the cutoff but a season-table player appears in no
such row, that player's average has divisor zero and the whole
computation raises (`ZeroDivisionError`), so totality needs every
season player to occur in the non-empty remaining schedule. -/
theorem c10_estimator_raises_on_player_without_remaining
    (season : List (String × ℚ)) (schedule : List ScheduleRow) (cw : ℕ)
    (p : String)
    (hnz : ∃ s ∈ schedule, cw < s.week)
    (hp : p ∈ season.map (·.1))
    (hmiss : ∀ s ∈ schedule, cw < s.week → s.player ≠ p) :
    remaining_opponent_avg_rank season schedule cw = none := by
  unfold remaining_opponent_avg_rank
  apply traverseOpt_eq_none _ _ p hp
  unfold roarOne
  have hlen : 0 < (schedule.filter fun s => decide (cw < s.week)).length := by
    obtain ⟨s, hs, hlt⟩ := hnz
    have hmem : s ∈ schedule.filter fun s => decide (cw < s.week) :=
      List.mem_filter.mpr ⟨hs, by simpa⟩
    exact List.length_pos.mpr (List.ne_nil_of_mem hmem)
  rw [if_pos hlen]
  have hops : ((schedule.filter fun s => decide (cw < s.week)).filter
      fun s => s.player == p) = [] := by
    rw [List.filter_eq_nil_iff]
    intro s hs
    obtain ⟨hs1, hs2⟩ := List.mem_filter.mp hs
    simpa using hmiss s hs1 (by simpa using hs2)
  rw [hops]
  by_cases hcw : cw = 0
  · simp [traverseOpt, hcw]
  · simp [traverseOpt, hcw]

/-- Witness for C10: week 2 remains, but player B has no remaining
row, so the estimator raises. -/
theorem c10_estimator_raises_witness :
    remaining_opponent_avg_rank [("A", 5), ("B", 3)] [⟨2, "A", "B"⟩] 1 = none :=
  c10_estimator_raises_on_player_without_remaining
    [("A", 5), ("B", 3)] [⟨2, "A", "B"⟩] 1 "B"
    ⟨⟨2, "A", "B"⟩, by decide, by decide⟩ (by decide) (by decide)

/-- Claim C2: with a non-empty remaining schedule, a positive cutoff,
and every season player owning at least one future opponent, all of
them present in the season table, the estimator returns for each
player the average over the player's future opponents of the
opponent's total rank score divided by the cutoff week, rounded to two
decimals. -/
theorem c2_estimator_average_formula (season : List (String × ℚ))
    (schedule : List ScheduleRow) (cw : ℕ)
    (hcw : 0 < cw)
    (hnz : ∃ s ∈ schedule, cw < s.week)
    (hops : ∀ pr ∈ season, futureOpps schedule cw pr.1 ≠ [] ∧
      ∀ o ∈ futureOpps schedule cw pr.1, (lookupRankPoints season o).isSome) :
    remaining_opponent_avg_rank season schedule cw =
      some (season.map fun pr =>
        roundTo 2 ((((futureOpps schedule cw pr.1).map fun o =>
            (lookupRankPoints season o).getD 0 / (cw : ℚ)).sum) /
          (((futureOpps schedule cw pr.1).length : ℕ) : ℚ))) := by
  unfold remaining_opponent_avg_rank
  have hlen : 0 < (schedule.filter fun s => decide (cw < s.week)).length := by
    obtain ⟨s, hs, hlt⟩ := hnz
    have hmem : s ∈ schedule.filter fun s => decide (cw < s.week) :=
      List.mem_filter.mpr ⟨hs, by simpa⟩
    exact List.length_pos.mpr (List.ne_nil_of_mem hmem)
  have hmain : ∀ p ∈ season.map (·.1),
      roarOne season (schedule.filter fun s => decide (cw < s.week)) cw p =
        some (roundTo 2 ((((futureOpps schedule cw p).map fun o =>
            (lookupRankPoints season o).getD 0 / (cw : ℚ)).sum) /
          (((futureOpps schedule cw p).length : ℕ) : ℚ))) := by
    intro p hp
    obtain ⟨pr, hpr, hp1⟩ := List.mem_map.mp hp
    subst hp1
    obtain ⟨hne, hlook⟩ := hops pr hpr
    unfold roarOne
    rw [if_pos hlen]
    have hopseq : (((schedule.filter fun s => decide (cw < s.week)).filter
        fun s => s.player == pr.1).map (·.opponent)) = futureOpps schedule cw pr.1 :=
      rfl
    rw [hopseq]
    have htrav : traverseOpt (lookupRankPoints season) (futureOpps schedule cw pr.1) =
        some ((futureOpps schedule cw pr.1).map fun o =>
          (lookupRankPoints season o).getD 0) := by
      refine traverseOpt_eq_map _ _ _ fun o ho => ?_
      cases hlo : lookupRankPoints season o with
      | none =>
        have hcontra := hlook o ho
        rw [hlo] at hcontra
        simp at hcontra
      | some v => simp [hlo]
    rw [htrav]
    have hcw0 : ¬ (cw = 0) := by omega
    dsimp only
    rw [if_neg hcw0, List.map_map]
    rw [if_neg (by simpa using hne)]
    simp only [List.length_map]
    rfl
  rw [traverseOpt_eq_map _ _ _ hmain, List.map_map]
  rfl

/-! Season Aggregator: sortedness of the place-sorted output and
strict antitonicity of the descending fractional rank. -/

theorem mem_insertLe {σ : Type} (le : σ → σ → Bool) (x a : σ) (l : List σ) :
    a ∈ insertLe le x l ↔ a = x ∨ a ∈ l := by
  induction l with
  | nil => simp [insertLe]
  | cons y ys ih =>
    unfold insertLe
    by_cases h : le x y
    · simp [h]
    · simp only [h, if_neg, Bool.false_eq_true, not_false_iff, List.mem_cons, ih]
      tauto

theorem mem_sortLe {σ : Type} (le : σ → σ → Bool) (a : σ) (l : List σ) :
    a ∈ sortLe le l ↔ a ∈ l := by
  induction l with
  | nil => simp [sortLe]
  | cons y ys ih =>
    unfold sortLe
    rw [mem_insertLe, ih]
    simp

theorem pairwise_insertLe {σ : Type} (le : σ → σ → Bool)
    (htot : ∀ a b, le a b = true ∨ le b a = true)
    (htrans : ∀ a b c, le a b = true → le b c = true → le a c = true)
    (x : σ) (l : List σ) (h : l.Pairwise fun a b => le a b = true) :
    (insertLe le x l).Pairwise fun a b => le a b = true := by
  induction l with
  | nil => simp [insertLe]
  | cons y ys ih =>
    rw [List.pairwise_cons] at h
    unfold insertLe
    by_cases hxy : le x y = true
    · rw [if_pos hxy]
      refine List.pairwise_cons.mpr ⟨?_, List.pairwise_cons.mpr ⟨h.1, h.2⟩⟩
      intro b hb
      rcases List.mem_cons.mp hb with rfl | hb2
      · exact hxy
      · exact htrans x y b hxy (h.1 b hb2)
    · rw [if_neg hxy]
      have hyx : le y x = true := (htot x y).resolve_left hxy
      refine List.pairwise_cons.mpr ⟨?_, ih h.2⟩
      intro b hb
      rcases (mem_insertLe le x b ys).mp hb with rfl | hb2
      · exact hyx
      · exact h.1 b hb2

theorem pairwise_sortLe {σ : Type} (le : σ → σ → Bool)
    (htot : ∀ a b, le a b = true ∨ le b a = true)
    (htrans : ∀ a b c, le a b = true → le b c = true → le a c = true)
    (l : List σ) : (sortLe le l).Pairwise fun a b => le a b = true := by
  induction l with
  | nil => exact List.Pairwise.nil
  | cons y ys ih => exact pairwise_insertLe le htot htrans y (sortLe le ys) ih

theorem zipWith_mem_exists {σ τ υ : Type} (f : σ → τ → υ) :
    ∀ (l1 : List σ) (l2 : List τ), ∀ x ∈ List.zipWith f l1 l2,
      ∃ a ∈ l1, ∃ b ∈ l2, x = f a b := by
  intro l1
  induction l1 with
  | nil => intro l2 x hx; simp at hx
  | cons a t ih =>
    intro l2 x hx
    cases l2 with
    | nil => simp at hx
    | cons b s =>
      rw [List.zipWith_cons_cons] at hx
      rcases List.mem_cons.mp hx with rfl | hx2
      · exact ⟨a, by simp, b, by simp, rfl⟩
      · obtain ⟨a2, ha2, b2, hb2, rfl⟩ := ih s x hx2
        exact ⟨a2, by simp [ha2], b2, by simp [hb2], rfl⟩

theorem zipWith_pairwise {σ τ υ : Type} (f : σ → τ → υ)
    (R : σ → σ → Prop) (S : υ → υ → Prop)
    (hf : ∀ a b x y, R a b → S (f a x) (f b y)) :
    ∀ (l1 : List σ) (l2 : List τ), l1.Pairwise R →
      (List.zipWith f l1 l2).Pairwise S := by
  intro l1
  induction l1 with
  | nil => intro l2 _; simp
  | cons a t ih =>
    intro l2 hpw
    rw [List.pairwise_cons] at hpw
    cases l2 with
    | nil => simp
    | cons b s =>
      rw [List.zipWith_cons_cons]
      refine List.pairwise_cons.mpr ⟨?_, ih s hpw.2⟩
      intro y hy
      obtain ⟨a2, ha2, b2, _, rfl⟩ := zipWith_mem_exists f t s y hy
      exact hf a a2 b b2 (hpw.1 a2 ha2)

theorem countP_disjoint_le (l : List ℚ) (p q r : ℚ → Bool)
    (hpr : ∀ x, p x = true → r x = true)
    (hqr : ∀ x, q x = true → r x = true)
    (hdis : ∀ x, ¬(p x = true ∧ q x = true)) :
    l.countP p + l.countP q ≤ l.countP r := by
  induction l with
  | nil => simp
  | cons a t ih =>
    rw [List.countP_cons, List.countP_cons, List.countP_cons]
    cases hpa : p a with
    | true =>
      cases hqa : q a with
      | true => exact absurd ⟨hpa, hqa⟩ (hdis a)
      | false =>
        rw [hpr a hpa]
        simp only [if_true, if_false, Bool.false_eq_true]
        omega
    | false =>
      cases hqa : q a with
      | true =>
        rw [hqr a hqa]
        simp only [if_true, if_false, Bool.false_eq_true]
        omega
      | false =>
        cases hra : r a <;> simp only [if_true, if_false, Bool.false_eq_true] <;> omega

theorem fracRankDesc_strict_anti (l : List ℚ) (v1 v2 : ℚ)
    (hmem : v1 ∈ l) (h : v2 < v1) :
    fracRankDesc l v1 < fracRankDesc l v2 := by
  unfold fracRankDesc
  have hG : (l.countP fun x => decide (v1 < x)) + (l.countP fun x => decide (x = v1))
      ≤ l.countP fun x => decide (v2 < x) := by
    refine countP_disjoint_le l _ _ _ ?_ ?_ ?_
    · intro x hx
      simp only [decide_eq_true_eq] at hx ⊢
      exact lt_trans h hx
    · intro x hx
      simp only [decide_eq_true_eq] at hx ⊢
      exact hx ▸ h
    · intro x hx
      simp only [decide_eq_true_eq] at hx
      exact absurd (hx.2 ▸ hx.1) (lt_irrefl v1)
  have hE1 : 1 ≤ l.countP fun x => decide (x = v1) := by
    have : 0 < l.countP fun x => decide (x = v1) :=
      List.countP_pos.mpr ⟨v1, hmem, by simp⟩
    omega
  have hGq : ((l.countP fun x => decide (v1 < x) : ℕ) : ℚ) +
      ((l.countP fun x => decide (x = v1) : ℕ) : ℚ) ≤
      ((l.countP fun x => decide (v2 < x) : ℕ) : ℚ) := by
    exact_mod_cast hG
  have hE1q : (1 : ℚ) ≤ ((l.countP fun x => decide (x = v1) : ℕ) : ℚ) := by
    exact_mod_cast hE1
  have hE2q : (0 : ℚ) ≤ ((l.countP fun x => decide (x = v2) : ℕ) : ℚ) := by
    positivity
  linarith

/-- Claim C4: whenever `collect_season_stats` returns a table, that
table is sorted ascending by `Place` — the descending average rank of
`Total Points` — and `Place` is strictly consistent with `Total
Points`: a strictly larger total yields a strictly smaller (better)
place. -/
theorem c4_place_descending_rank_of_total (rows : List EnrichedRow)
    (schedule : List ScheduleRow) (out : List SeasonRow)
    (hout : collect_season_stats rows schedule = some out) :
    out.Pairwise (fun a b => a.place ≤ b.place) ∧
      ∀ a ∈ out, ∀ b ∈ out,
        b.total_points < a.total_points → a.place < b.place := by
  unfold collect_season_stats at hout
  dsimp only at hout
  set players := sortLe (fun a b => decide (a ≤ b)) (uniqKeys (rows.map (·.player)))
    with hplayers
  set base := players.map (aggPlayer rows) with hbase
  set totals := base.map (·.total_points) with htotals
  set placed := base.map
    (fun s => { s with place := fracRankDesc totals s.total_points }) with hplaced
  set sorted := sortLe (fun a b => decide (a.place ≤ b.place)) placed with hsorted
  cases hroar : remaining_opponent_avg_rank
      (sorted.map fun s => (s.player, s.rank_points)) schedule
      ((rows.map (·.week)).foldr max 0) with
  | none =>
    rw [hroar] at hout
    exact absurd hout (by simp)
  | some rs =>
    rw [hroar] at hout
    simp only [Option.some.injEq] at hout
    have hpw_sorted : sorted.Pairwise fun a b => a.place ≤ b.place := by
      refine List.Pairwise.imp (fun hab => of_decide_eq_true hab) ?_
      refine pairwise_sortLe _ ?_ ?_ placed
      · intro a b
        rcases le_total a.place b.place with h | h
        · exact Or.inl (decide_eq_true h)
        · exact Or.inr (decide_eq_true h)
      · intro a b c hab hbc
        exact decide_eq_true
          (le_trans (of_decide_eq_true hab) (of_decide_eq_true hbc))
    have hpw_out : out.Pairwise fun a b => a.place ≤ b.place := by
      rw [← hout]
      exact zipWith_pairwise
        (fun s (r : ℚ) => { s with remain_opp_avg_rank := r })
        (fun a b : SeasonRow => a.place ≤ b.place)
        (fun a b : SeasonRow => a.place ≤ b.place)
        (fun a b x y hab => hab) sorted rs hpw_sorted
    have hchar : ∀ a ∈ out,
        a.place = fracRankDesc totals a.total_points ∧
          a.total_points ∈ totals := by
      intro a ha
      rw [← hout] at ha
      obtain ⟨s, hs, r, _, rfl⟩ :=
        zipWith_mem_exists (fun s r => { s with remain_opp_avg_rank := r })
          sorted rs a ha
      have hs2 : s ∈ placed := (mem_sortLe _ s placed).mp hs
      rw [hplaced] at hs2
      obtain ⟨b0, hb0, rfl⟩ := List.mem_map.mp hs2
      refine ⟨rfl, ?_⟩
      rw [htotals]
      exact List.mem_map.mpr ⟨b0, hb0, rfl⟩
    refine ⟨hpw_out, ?_⟩
    intro a ha b hb hlt
    obtain ⟨hpa, hta⟩ := hchar a ha
    obtain ⟨hpb, _⟩ := hchar b hb
    rw [hpa, hpb]
    exact fracRankDesc_strict_anti totals a.total_points b.total_points hta hlt

/-- Witness for C8 on the spec's scenario week {100, 80, 90, 90}: the
100-point row strictly exceeds the weekly median 90. -/
theorem c8_expected_win_witness :
    (expectedWinOf
        [⟨1, "A", 100, some "B", some 80⟩, ⟨1, "B", 80, some "A", some 100⟩,
          ⟨1, "C", 90, some "D", some 90⟩, ⟨1, "D", 90, some "C", some 90⟩]
        ⟨1, "A", 100, some "B", some 80⟩ = true ↔
      medianQ (weekPoints
        [⟨1, "A", 100, some "B", some 80⟩, ⟨1, "B", 80, some "A", some 100⟩,
          ⟨1, "C", 90, some "D", some 90⟩, ⟨1, "D", 90, some "C", some 90⟩] 1) <
        (100 : ℚ)) ∧
      ((100 : ℚ) = medianQ (weekPoints
        [⟨1, "A", 100, some "B", some 80⟩, ⟨1, "B", 80, some "A", some 100⟩,
          ⟨1, "C", 90, some "D", some 90⟩, ⟨1, "D", 90, some "C", some 90⟩] 1) →
        expectedWinOf
          [⟨1, "A", 100, some "B", some 80⟩, ⟨1, "B", 80, some "A", some 100⟩,
            ⟨1, "C", 90, some "D", some 90⟩, ⟨1, "D", 90, some "C", some 90⟩]
          ⟨1, "A", 100, some "B", some 80⟩ = false) :=
  c8_expected_win_strict_median
    [⟨1, "A", 100, some "B", some 80⟩, ⟨1, "B", 80, some "A", some 100⟩,
      ⟨1, "C", 90, some "D", some 90⟩, ⟨1, "D", 90, some "C", some 90⟩]
    ⟨1, "A", 100, some "B", some 80⟩ (by decide)

/-- Witness for C2: cutoff week 1 with week 2 remaining for both
players; each player's value is the opponent's rank score over the
cutoff. -/
theorem c2_estimator_average_witness :
    remaining_opponent_avg_rank [("A", 5), ("B", 3)]
        [⟨2, "A", "B"⟩, ⟨2, "B", "A"⟩] 1 =
      some (([("A", 5), ("B", 3)] : List (String × ℚ)).map fun pr =>
        roundTo 2 ((((futureOpps [⟨2, "A", "B"⟩, ⟨2, "B", "A"⟩] 1 pr.1).map fun o =>
            (lookupRankPoints [("A", 5), ("B", 3)] o).getD 0 / ((1 : ℕ) : ℚ)).sum) /
          (((futureOpps [⟨2, "A", "B"⟩, ⟨2, "B", "A"⟩] 1 pr.1).length : ℕ) : ℚ))) :=
  c2_estimator_average_formula [("A", 5), ("B", 3)]
    [⟨2, "A", "B"⟩, ⟨2, "B", "A"⟩] 1 (by decide)
    ⟨⟨2, "A", "B"⟩, by decide, by decide⟩ (by decide)

/-- Witness for C4 on a two-player season: the returned table is
place-sorted and the larger total has the strictly smaller place. -/
theorem c4_place_witness :
    (([⟨1, "A", 100, 80, 1, 2/5, 7/5, 1, 0, 0, 1/5⟩,
        ⟨2, "B", 80, 100, 0, 1/5, 1/5, 0, 0, 0, 2/5⟩] : List SeasonRow).Pairwise
      fun a b => a.place ≤ b.place) ∧
      ∀ a ∈ ([⟨1, "A", 100, 80, 1, 2/5, 7/5, 1, 0, 0, 1/5⟩,
        ⟨2, "B", 80, 100, 0, 1/5, 1/5, 0, 0, 0, 2/5⟩] : List SeasonRow),
        ∀ b ∈ ([⟨1, "A", 100, 80, 1, 2/5, 7/5, 1, 0, 0, 1/5⟩,
          ⟨2, "B", 80, 100, 0, 1/5, 1/5, 0, 0, 0, 2/5⟩] : List SeasonRow),
        b.total_points < a.total_points → a.place < b.place :=
  c4_place_descending_rank_of_total
    [⟨1, "A", 100, 80, true, 2/5, true, false, false⟩,
      ⟨1, "B", 80, 100, false, 1/5, false, false, false⟩]
    [⟨2, "A", "B"⟩, ⟨2, "B", "A"⟩]
    [⟨1, "A", 100, 80, 1, 2/5, 7/5, 1, 0, 0, 1/5⟩,
      ⟨2, "B", 80, 100, 0, 1/5, 1/5, 0, 0, 0, 2/5⟩]
    (by with_unfolding_all decide)

/-! Matchup-item assignment: failure on a missing opponent, and
pair-consistent labels on a symmetric schedule. -/

theorem lookup_cons_eq {α : Type} (k : String) (v : α) (m : List (String × α)) :
    List.lookup k ((k, v) :: m) = some v := by
  simp [List.lookup]

theorem lookup_cons_ne {α : Type} (x k : String) (v : α) (m : List (String × α))
    (h : x ≠ k) : List.lookup x ((k, v) :: m) = List.lookup x m := by
  have hbeq : (x == k) = false := beq_eq_false_iff_ne.mpr h
  simp [List.lookup, hbeq]

theorem mem_of_getElem?_some {σ : Type} (l : List σ) (i : ℕ) (a : σ)
    (h : l[i]? = some a) : a ∈ l := by
  obtain ⟨hlt, rfl⟩ := List.getElem?_eq_some.mp h
  exact List.getElem_mem hlt

theorem traverseOpt_isSome {σ τ : Type} (f : σ → Option τ) (l : List σ)
    (h : ∀ x ∈ l, (f x).isSome) : ∃ res, traverseOpt f l = some res := by
  induction l with
  | nil => exact ⟨[], rfl⟩
  | cons x xs ih =>
    obtain ⟨v, hv⟩ := Option.isSome_iff_exists.mp (h x (by simp))
    obtain ⟨vs, hvs⟩ := ih fun y hy => h y (by simp [hy])
    exact ⟨v :: vs, by simp [traverseOpt, hv, hvs]⟩

theorem find?_player_eq (sched : List ScheduleRow)
    (hpw : sched.Pairwise fun a b => a.player ≠ b.player)
    (t : ScheduleRow) (ht : t ∈ sched) (q : String) (htq : t.player = q) :
    sched.find? (fun s => s.player == q) = some t := by
  induction sched with
  | nil => simp at ht
  | cons x xs ih =>
    rw [List.pairwise_cons] at hpw
    rcases List.mem_cons.mp ht with rfl | ht2
    · exact List.find?_cons_of_pos _ (by simp [htq])
    · have hxq : x.player ≠ q := fun h =>
        hpw.1 t ht2 (h.trans htq.symm)
      rw [List.find?_cons_of_neg _ (by simp [hxq])]
      exact ih hpw.2 ht2

theorem oppOf_involution (sched : List ScheduleRow)
    (hpw : sched.Pairwise fun a b => a.player ≠ b.player)
    (hsym : ∀ s ∈ sched, ∃ t ∈ sched,
      t.player = s.opponent ∧ t.opponent = s.player)
    (p q : String) (h : oppOf sched p = some q) : oppOf sched q = some p := by
  unfold oppOf at h ⊢
  cases hf : sched.find? fun s => s.player == p with
  | none =>
    rw [hf] at h
    simp at h
  | some s =>
    rw [hf] at h
    simp at h
    have hs_mem : s ∈ sched := List.mem_of_find?_eq_some hf
    have hs_p : s.player = p := by simpa using List.find?_some hf
    obtain ⟨t, ht, htp, hto⟩ := hsym s hs_mem
    rw [find?_player_eq sched hpw t ht q (htp.trans h)]
    simp [hto, hs_p]

theorem getMatchupMap_none {α : Type} (sched : List ScheduleRow)
    (items : List α) (p : String) (hmiss : ∀ s ∈ sched, s.player ≠ p) :
    ∀ (ps : List String), p ∈ ps → ∀ (m : List (String × α)) (i : ℕ),
      getMatchupMap sched items ps m i = none := by
  intro ps
  induction ps with
  | nil => intro h; simp at h
  | cons x xs ih =>
    intro hmem m i
    unfold getMatchupMap
    rcases List.mem_cons.mp hmem with rfl | h2
    · have hnone : oppOf sched p = none := by
        unfold oppOf
        have hfind : sched.find? (fun s => s.player == p) = none :=
          List.find?_eq_none.mpr fun s hs => by simp [hmiss s hs]
        rw [hfind]
        rfl
      rw [hnone]
    · cases ho : oppOf sched x with
      | none => rfl
      | some ag =>
        dsimp only
        by_cases hin : (List.lookup x m).isSome
        · rw [if_pos hin]
          exact ih h2 m i
        · rw [if_neg hin]
          cases hit : items[i]? with
          | none => rfl
          | some item => exact ih h2 _ _

/-- Covering test for first encounters: player `p` is already covered
by the earlier-listed players `earlier` when one of them is `p` itself
or has `p` as scheduled opponent.  On a duplicate-free symmetric
schedule this is exactly "some earlier pair already contains `p`",
i.e. `p` is in the item map when the loop of `get_matchup_items`
reaches it. -/
def coveredBy (sched : List ScheduleRow) (earlier : List String) (p : String) :
    Bool :=
  earlier.any fun q => q == p || oppOf sched q == some p

/-- Number of first encounters (new pairs) in a player list processed
in order, starting from the already-seen players `seen`: each player
not covered by the players before it opens a new pair.  This is the
value of `item_index` after the loop of `get_matchup_items` has
processed the list. -/
def newCountAux (sched : List ScheduleRow) : List String → List String → ℕ
  | _, [] => 0
  | seen, p :: ps =>
    (if coveredBy sched seen p then 0 else 1) + newCountAux sched (p :: seen) ps

theorem coveredBy_cons (sched : List ScheduleRow) (a : String)
    (seen : List String) (x : String) :
    coveredBy sched (a :: seen) x =
      ((a == x || oppOf sched a == some x) || coveredBy sched seen x) := by
  simp [coveredBy, List.any_cons]

theorem coveredBy_middle (sched : List ScheduleRow) (a : String)
    (l1 seen : List String) (x : String) :
    coveredBy sched (l1 ++ a :: seen) x =
      coveredBy sched ((a :: l1) ++ seen) x := by
  simp [coveredBy, List.any_append, List.any_cons, Bool.or_comm,
    Bool.or_left_comm, Bool.or_assoc]

theorem getMatchupMap_ok {α : Type} (sched : List ScheduleRow) (items : List α)
    (hpw : sched.Pairwise fun a b => a.player ≠ b.player)
    (hsym : ∀ s ∈ sched, ∃ t ∈ sched,
      t.player = s.opponent ∧ t.opponent = s.player) :
    ∀ (ps : List String) (m : List (String × α)) (i : ℕ) (seen : List String),
      (∀ x v, List.lookup x m = some v →
        ∃ y, oppOf sched x = some y ∧ List.lookup y m = some v) →
      (∀ x, (List.lookup x m).isSome = true ↔ coveredBy sched seen x = true) →
      (∀ p ∈ ps, ∃ s ∈ sched, s.player = p) →
      i + ps.length ≤ items.length →
      ∃ m2, getMatchupMap sched items ps m i = some m2 ∧
        (∀ x v, List.lookup x m2 = some v →
          ∃ y, oppOf sched x = some y ∧ List.lookup y m2 = some v) ∧
        (∀ x v, List.lookup x m = some v → List.lookup x m2 = some v) ∧
        (∀ p ∈ ps, (List.lookup p m2).isSome) ∧
        (∀ l1 p l2, ps = l1 ++ p :: l2 →
          coveredBy sched (l1 ++ seen) p = false →
          List.lookup p m2 = items[i + newCountAux sched seen l1]?) := by
  intro ps
  induction ps with
  | nil =>
    intro m i seen hinv _ _ _
    refine ⟨m, rfl, hinv, fun x v hv => hv, by simp, ?_⟩
    intro l1 p l2 hdec
    cases l1 <;> simp at hdec
  | cons p0 ps ih =>
    intro m i seen hinv hseen hsched hlen
    obtain ⟨s, hs, hsp⟩ := hsched p0 (by simp)
    have hopp : oppOf sched p0 = some s.opponent := by
      unfold oppOf
      rw [find?_player_eq sched hpw s hs p0 hsp]
      rfl
    have hinvol : oppOf sched s.opponent = some p0 :=
      oppOf_involution sched hpw hsym p0 s.opponent hopp
    unfold getMatchupMap
    rw [hopp]
    dsimp only
    by_cases hin : (List.lookup p0 m).isSome
    · rw [if_pos hin]
      have hcov0 : coveredBy sched seen p0 = true := (hseen p0).mp hin
      have hseen2 : ∀ x, (List.lookup x m).isSome = true ↔
          coveredBy sched (p0 :: seen) x = true := by
        intro x
        rw [coveredBy_cons, Bool.or_eq_true, Bool.or_eq_true]
        constructor
        · intro hx
          exact Or.inr ((hseen x).mp hx)
        · rintro ((hx | hx) | hx)
          · have hpx : p0 = x := by simpa using hx
            rw [← hpx]
            exact hin
          · have hox : s.opponent = x := by
              rw [hopp] at hx
              simpa using hx
            obtain ⟨v, hv⟩ := Option.isSome_iff_exists.mp hin
            obtain ⟨y, hy1, hy2⟩ := hinv p0 v hv
            rw [hopp] at hy1
            have hys : s.opponent = y := Option.some.inj hy1
            rw [← hox, hys, hy2]
            rfl
          · exact (hseen x).mpr hx
      obtain ⟨m2, heq, hinv2, hval2, hps2, hlab2⟩ := ih m i (p0 :: seen)
        hinv hseen2 (fun q hq => hsched q (by simp [hq]))
        (by simp only [List.length_cons] at hlen; omega)
      refine ⟨m2, heq, hinv2, hval2, ?_, ?_⟩
      · intro q hq
        rcases List.mem_cons.mp hq with rfl | hq2
        · obtain ⟨v, hv⟩ := Option.isSome_iff_exists.mp hin
          rw [hval2 q v hv]
          rfl
        · exact hps2 q hq2
      · intro l1 p l2 hdec hcov
        cases l1 with
        | nil =>
          simp only [List.nil_append] at hdec hcov
          injection hdec with h1 h2
          subst h1
          exact absurd (hcov.symm.trans hcov0) (by simp)
        | cons q l1' =>
          simp only [List.cons_append] at hdec hcov
          injection hdec with h1 h2
          subst h1
          have hcov' : coveredBy sched (l1' ++ p0 :: seen) p = false := by
            rw [coveredBy_middle]
            simpa using hcov
          have hres := hlab2 l1' p l2 h2 hcov'
          have hcnt : newCountAux sched seen (p0 :: l1') =
              newCountAux sched (p0 :: seen) l1' := by
            simp [newCountAux, hcov0]
          rw [hcnt]
          exact hres
    · rw [if_neg hin]
      have hcov0 : coveredBy sched seen p0 = false := by
        cases hc : coveredBy sched seen p0
        · rfl
        · exact absurd ((hseen p0).mpr hc) hin
      have hi_lt : i < items.length := by
        simp only [List.length_cons] at hlen
        omega
      have hitem : items[i]? = some items[i] := List.getElem?_eq_getElem hi_lt
      rw [hitem]
      dsimp only
      have hag : ¬ (List.lookup s.opponent m).isSome = true := by
        intro hcon
        obtain ⟨v, hv⟩ := Option.isSome_iff_exists.mp hcon
        obtain ⟨y, hy1, hy2⟩ := hinv s.opponent v hv
        rw [hinvol] at hy1
        have hyp : p0 = y := Option.some.inj hy1
        rw [← hyp] at hy2
        exact hin (by simp [hy2])
      set mA : List (String × α) :=
        (s.opponent, items[i]) :: (p0, items[i]) :: m with hmA
      have hlookP : List.lookup p0 mA = some items[i] := by
        by_cases hpag : p0 = s.opponent
        · rw [hmA, ← hpag]
          exact lookup_cons_eq p0 items[i] _
        · rw [hmA, lookup_cons_ne p0 s.opponent _ _ hpag]
          exact lookup_cons_eq p0 items[i] m
      have hlookAg : List.lookup s.opponent mA = some items[i] := by
        rw [hmA]
        exact lookup_cons_eq _ _ _
      have hlookOther : ∀ x, x ≠ p0 → x ≠ s.opponent →
          List.lookup x mA = List.lookup x m := by
        intro x hx1 hx2
        rw [hmA, lookup_cons_ne x s.opponent _ _ hx2,
          lookup_cons_ne x p0 _ _ hx1]
      have hinvA : ∀ x v, List.lookup x mA = some v →
          ∃ y, oppOf sched x = some y ∧ List.lookup y mA = some v := by
        intro x v hx
        by_cases hx2 : x = s.opponent
        · subst hx2
          rw [hlookAg] at hx
          obtain rfl : items[i] = v := Option.some.inj hx
          exact ⟨p0, hinvol, hlookP⟩
        · by_cases hx3 : x = p0
          · subst hx3
            rw [hlookP] at hx
            obtain rfl : items[i] = v := Option.some.inj hx
            exact ⟨s.opponent, hopp, hlookAg⟩
          · rw [hlookOther x hx3 hx2] at hx
            obtain ⟨y, hy1, hy2⟩ := hinv x v hx
            refine ⟨y, hy1, ?_⟩
            have hyp : y ≠ p0 := by
              intro he
              rw [he] at hy2
              exact hin (by simp [hy2])
            have hyag : y ≠ s.opponent := by
              intro he
              rw [he] at hy2
              exact hag (by simp [hy2])
            rw [hlookOther y hyp hyag]
            exact hy2
      have hvalA : ∀ x v, List.lookup x m = some v →
          List.lookup x mA = some v := by
        intro x v hv
        have hx3 : x ≠ p0 := fun he => hin (by rw [he] at hv; simp [hv])
        have hx2 : x ≠ s.opponent := fun he => hag (by rw [he] at hv; simp [hv])
        rw [hlookOther x hx3 hx2]
        exact hv
      have hseenA : ∀ x, (List.lookup x mA).isSome = true ↔
          coveredBy sched (p0 :: seen) x = true := by
        intro x
        rw [coveredBy_cons, Bool.or_eq_true, Bool.or_eq_true]
        constructor
        · intro hx
          by_cases hx2 : x = s.opponent
          · refine Or.inl (Or.inr ?_)
            rw [hopp, hx2]
            simp
          · by_cases hx3 : x = p0
            · refine Or.inl (Or.inl ?_)
              rw [hx3]
              simp
            · rw [hlookOther x hx3 hx2] at hx
              exact Or.inr ((hseen x).mp hx)
        · rintro ((hx | hx) | hx)
          · have hpx : p0 = x := by simpa using hx
            rw [← hpx, hlookP]
            rfl
          · have hox : s.opponent = x := by
              rw [hopp] at hx
              simpa using hx
            rw [← hox, hlookAg]
            rfl
          · obtain ⟨v, hv⟩ := Option.isSome_iff_exists.mp ((hseen x).mpr hx)
            rw [hvalA x v hv]
            rfl
      obtain ⟨m2, heq, hinv2, hval2, hps2, hlab2⟩ := ih mA (i + 1) (p0 :: seen)
        hinvA hseenA (fun q hq => hsched q (by simp [hq]))
        (by simp only [List.length_cons] at hlen; omega)
      refine ⟨m2, heq, hinv2, ?_, ?_, ?_⟩
      · intro x v hv
        exact hval2 x v (hvalA x v hv)
      · intro q hq
        rcases List.mem_cons.mp hq with rfl | hq2
        · rw [hval2 q items[i] hlookP]
          rfl
        · exact hps2 q hq2
      · intro l1 p l2 hdec hcov
        cases l1 with
        | nil =>
          simp only [List.nil_append] at hdec hcov
          injection hdec with h1 h2
          subst h1
          have hres : List.lookup p0 m2 = some items[i] :=
            hval2 p0 items[i] hlookP
          have hcnt : i + newCountAux sched seen ([] : List String) = i := by
            simp [newCountAux]
          rw [hcnt, hres]
          exact hitem.symm
        | cons q l1' =>
          simp only [List.cons_append] at hdec hcov
          injection hdec with h1 h2
          subst h1
          have hcov' : coveredBy sched (l1' ++ p0 :: seen) p = false := by
            rw [coveredBy_middle]
            simpa using hcov
          have hres := hlab2 l1' p l2 h2 hcov'
          have hcnt : newCountAux sched seen (p0 :: l1') =
              1 + newCountAux sched (p0 :: seen) l1' := by
            simp [newCountAux, hcov0]
          have hidx : i + newCountAux sched seen (p0 :: l1') =
              i + 1 + newCountAux sched (p0 :: seen) l1' := by
            omega
          rw [hidx]
          exact hres

/-- Claim C9: if some listed player has no schedule row for the week,
`get_matchup_items` fails with a lookup error (`none`) rather than
producing labels; and on a duplicate-free, symmetric schedule covering
every listed player (with enough items), it returns one label per
player such that both members of each opponent pair receive the same
label, assigned in first-encounter order: the position opening the
k-th new pair (counting first encounters among the earlier-listed
players) receives item k. -/
theorem c9_matchup_items_lookup (players : List String)
    (sched : List ScheduleRow) {α : Type} (items : List α) :
    ((∃ p ∈ players, ∀ s ∈ sched, s.player ≠ p) →
      get_matchup_items players sched items = none) ∧
      ((sched.Pairwise fun a b => a.player ≠ b.player) →
        (∀ s ∈ sched, ∃ t ∈ sched, t.player = s.opponent ∧ t.opponent = s.player) →
        (∀ p ∈ players, ∃ s ∈ sched, s.player = p) →
        players.length ≤ items.length →
        ∃ lst, get_matchup_items players sched items = some lst ∧
          lst.length = players.length ∧
          (∀ (i j : ℕ) (p q : String), players[i]? = some p →
            players[j]? = some q →
            oppOf sched p = some q → lst[i]? = lst[j]?) ∧
          (∀ (i : ℕ) (p : String), players[i]? = some p →
            coveredBy sched (players.take i) p = false →
            lst[i]? = items[newCountAux sched [] (players.take i)]?)) := by
  constructor
  · rintro ⟨p, hp, hmiss⟩
    unfold get_matchup_items
    rw [getMatchupMap_none sched items p hmiss players hp [] 0]
  · intro hpw hsym htot hlen
    obtain ⟨m2, heq, hinv2, _, hall, hlab⟩ := getMatchupMap_ok sched items hpw
      hsym players [] 0 []
      (by intro x v h; simp [List.lookup] at h)
      (by intro x; simp [List.lookup, coveredBy])
      htot (by simpa)
    unfold get_matchup_items
    rw [heq]
    dsimp only
    obtain ⟨lst, hlst⟩ := traverseOpt_isSome (fun p => List.lookup p m2) players
      fun p hp => hall p hp
    refine ⟨lst, hlst, traverseOpt_length _ _ _ hlst, ?_, ?_⟩
    · intro i j p q hpi hqj hopq
      have hpmem : p ∈ players := mem_of_getElem?_some players i p hpi
      have h1 : lst[i]? = List.lookup p m2 :=
        traverseOpt_getElem _ _ _ hlst i p hpi
      have h2 : lst[j]? = List.lookup q m2 :=
        traverseOpt_getElem _ _ _ hlst j q hqj
      obtain ⟨v, hv⟩ := Option.isSome_iff_exists.mp (hall p hpmem)
      obtain ⟨y, hy1, hy2⟩ := hinv2 p v hv
      rw [hopq] at hy1
      have hyq : q = y := Option.some.inj hy1
      rw [← hyq] at hy2
      rw [h1, h2, hv, hy2]
    · intro i p hpi hcov
      obtain ⟨hlt, he⟩ := List.getElem?_eq_some.mp hpi
      have hdec : players = players.take i ++ p :: players.drop (i + 1) := by
        conv_lhs => rw [← List.take_append_drop i players]
        rw [List.drop_eq_getElem_cons hlt, he]
      have hres := hlab (players.take i) p (players.drop (i + 1)) hdec
        (by simpa using hcov)
      rw [Nat.zero_add] at hres
      have h1 : lst[i]? = List.lookup p m2 :=
        traverseOpt_getElem _ _ _ hlst i p hpi
      rw [h1, hres]

/-- Witness for C9: with an empty week schedule the helper fails for
any player; on the symmetric week A-B, C-D with four labels, labels
exist, agree across each pair, and follow first-encounter order. -/
theorem c9_matchup_items_witness :
    get_matchup_items ["A", "B"] ([] : List ScheduleRow) ["x", "y"] = none ∧
      (∃ lst, get_matchup_items ["A", "B", "C", "D"]
          [⟨1, "A", "B"⟩, ⟨1, "B", "A"⟩, ⟨1, "C", "D"⟩, ⟨1, "D", "C"⟩]
          ["x", "y", "z", "w"] = some lst ∧
        lst.length = (["A", "B", "C", "D"] : List String).length ∧
        (∀ (i j : ℕ) (p q : String),
          (["A", "B", "C", "D"] : List String)[i]? = some p →
          (["A", "B", "C", "D"] : List String)[j]? = some q →
          oppOf [⟨1, "A", "B"⟩, ⟨1, "B", "A"⟩, ⟨1, "C", "D"⟩, ⟨1, "D", "C"⟩] p =
            some q →
          lst[i]? = lst[j]?) ∧
        (∀ (i : ℕ) (p : String),
          (["A", "B", "C", "D"] : List String)[i]? = some p →
          coveredBy [⟨1, "A", "B"⟩, ⟨1, "B", "A"⟩, ⟨1, "C", "D"⟩, ⟨1, "D", "C"⟩]
            ((["A", "B", "C", "D"] : List String).take i) p = false →
          lst[i]? = (["x", "y", "z", "w"] : List String)[newCountAux
            [⟨1, "A", "B"⟩, ⟨1, "B", "A"⟩, ⟨1, "C", "D"⟩, ⟨1, "D", "C"⟩] []
            ((["A", "B", "C", "D"] : List String).take i)]?)) :=
  ⟨(c9_matchup_items_lookup ["A", "B"] [] ["x", "y"]).1
      ⟨"A", by decide, by simp⟩,
    (c9_matchup_items_lookup ["A", "B", "C", "D"]
        [⟨1, "A", "B"⟩, ⟨1, "B", "A"⟩, ⟨1, "C", "D"⟩, ⟨1, "D", "C"⟩]
        ["x", "y", "z", "w"]).2
      (by decide) (by decide) (by decide) (by decide)⟩
